import Mathlib

/-!
# Verification of the bill-splitting settlement engine

A shallow embedding of the calculator's settlement engine
(`distributeCentsEvenly`, `computeGroupExpenseOwed`, `computeRestaurantOwed`,
`computeSettlement`, and the even bill-split calculator) together with proofs
of the specified properties: remainder distribution, ledger conservation,
zero-sum after the rounding correction, settlement correctness, and the
transfer-count bound.

Modelling conventions:
* Monetary amounts entered by the user are JS numbers; they are embedded as
  exact rationals (`ℚ`).  All engine arithmetic after conversion to cents is
  on integers (`ℤ`), exactly as in the source.
* A JS object used as a map from person id to cents is embedded as `Ledger`:
  a finite key set together with a valuation; a missing key reads as `0`
  (the source always reads with `|| 0` or after initialisation).
* `parseFloat`/`parseInt` results are embedded as `Option` values, `none`
  standing for `NaN`.
* `Array.prototype.sort` is required to be stable by the ECMAScript
  standard, and a stable sort with respect to a total transitive comparator
  has a uniquely determined output, so it is embedded as
  `List.insertionSort`, which is stable.
-/

namespace SplitBills

/-- JS `Math.round` on the idealized rational value of the expression:
round half toward positive infinity. -/
def jsRound (q : ℚ) : ℤ := ⌊q + 1/2⌋

/-- `parseToCents(value)`: `parseFloat` the input, map `NaN` and negative
numbers to `0`, otherwise `Math.round(num * 100)`.  `none` models a `NaN`
parse result. -/
def parseToCents (v : Option ℚ) : ℤ :=
  match v with
  | none => 0
  | some num => if num < 0 then 0 else jsRound (num * 100)

/-- The amount input handler: `item.amount = parseFloat(e.target.value) || 0`.
`NaN` (and `0` itself) fall through to `0`; anything else, including a
negative number, is kept as is. -/
def parseAmountInput (v : Option ℚ) : ℚ := v.getD 0

/-- The quantity input handler:
`item.qty = Math.max(1, parseInt(e.target.value) || 1)`. -/
def parseQtyInput (v : Option ℤ) : ℤ :=
  max 1 (match v with
         | none => 1
         | some n => if n = 0 then 1 else n)

/-- `formatCurrency(amount)` = `'$' + Math.abs(amount).toFixed(2)`, embedded
on the integer-cents value that the callers feed it (they pass
`cents / 100`). -/
def formatCurrency (cents : ℤ) : String :=
  "$" ++ toString (cents.natAbs / 100) ++ "." ++
    (if cents.natAbs % 100 < 10 then "0" ++ toString (cents.natAbs % 100)
     else toString (cents.natAbs % 100))

/-- Even bill split calculator:
`perPersonCents = Math.round((billTotal * 100) / numPeople)`. -/
def evenSplitPerPersonCents (billTotal : ℚ) (numPeople : ℕ) : ℤ :=
  jsRound (billTotal * 100 / numPeople)

/-- The string shown in `even-result-value`: `'$0.00'` when validation fails
(`hasError || billTotal <= 0 || numPeople < 1`), otherwise the formatted
per-person share. -/
def evenSplitDisplay (billTotal : ℚ) (numPeople : ℕ) : String :=
  if billTotal ≤ 0 ∨ numPeople < 1 then "$0.00"
  else formatCurrency (evenSplitPerPersonCents billTotal numPeople)

/-- `distributeCentsEvenly(totalCents, participantIds)`:
`baseShare = Math.floor(totalCents / participantIds.length)`,
`remainder = totalCents - baseShare * participantIds.length`, and the share
at position `index` is `baseShare + (index < remainder ? 1 : 0)`.  The JS
object keyed by participant id is embedded as the association list in
participant order (participant ids are distinct in every caller, coming
from per-person checkboxes). -/
def distributeCentsEvenly (totalCents : ℤ) (participantIds : List ℕ) :
    List (ℕ × ℤ) :=
  if participantIds.length = 0 then []
  else
    let baseShare := Int.fdiv totalCents participantIds.length
    let remainder := totalCents - baseShare * participantIds.length
    participantIds.enum.map fun ip =>
      (ip.2, baseShare + if (ip.1 : ℤ) < remainder then 1 else 0)

/-- A JS object mapping person id to integer cents: a finite set of present
keys plus a valuation.  Reading a missing key yields `0` (`x[pid] || 0`). -/
structure Ledger where
  keys : Finset ℕ
  val : ℕ → ℤ

/-- `owedCents[pid] || 0`. -/
def Ledger.get (l : Ledger) (pid : ℕ) : ℤ :=
  if pid ∈ l.keys then l.val pid else 0

/-- `owedCents[pid] = (owedCents[pid] || 0) + c`. -/
def Ledger.addTo (l : Ledger) (pid : ℕ) (c : ℤ) : Ledger :=
  { keys := insert pid l.keys, val := Function.update l.val pid (l.get pid + c) }

/-- `Object.entries(shares).forEach(([pid, share]) => led[pid] = (led[pid] || 0) + share)`. -/
def Ledger.addShares (l : Ledger) (shares : List (ℕ × ℤ)) : Ledger :=
  shares.foldl (fun acc pr => acc.addTo pr.1 pr.2) l

/-- `people.forEach(p => owedCents[p.id] = 0)`. -/
def Ledger.ofPeople (peopleIds : List ℕ) : Ledger :=
  { keys := peopleIds.toFinset, val := fun _ => 0 }

/-- `Object.values(led).reduce((a, b) => a + b, 0)`: each present key is
summed once. -/
def Ledger.sum (l : Ledger) : ℤ := ∑ p ∈ l.keys, l.get p

/-- An expense line item (restaurant item / group expense item): amount in
decimal currency units, quantity (the UI clamps it to `≥ 1`; `0` models a
falsy value, defended by `item.qty || 1`), and the list of participant ids
in checkbox order. -/
structure ExpenseItem where
  amount : ℚ
  qty : ℕ
  participants : List ℕ

/-- `totalItemCents = Math.round(item.amount * (item.qty || 1) * 100)`. -/
def totalItemCents (item : ExpenseItem) : ℤ :=
  jsRound (item.amount * (if item.qty = 0 then 1 else (item.qty : ℚ)) * 100)

/-- The item aggregation loop shared by `computeGroupExpenseOwed` and the
item part of `computeRestaurantOwed`: initialise every roster member to `0`;
for each item, skip it when `item.participants.length === 0 || !item.amount`,
otherwise distribute `totalItemCents` over its participants and accumulate. -/
def computeGroupExpenseOwed (peopleIds : List ℕ) (items : List ExpenseItem) :
    Ledger :=
  items.foldl
    (fun owedCents item =>
      if item.participants = [] ∨ item.amount = 0 then owedCents
      else owedCents.addShares
        (distributeCentsEvenly (totalItemCents item) item.participants))
    (Ledger.ofPeople peopleIds)

/-- One element of `proportionalShares`:
`proportion = owedCents[p.id] / totalSubtotalCents`,
`share = Math.floor(taxTipCents * proportion)`. -/
structure PropShare where
  id : ℕ
  share : ℤ
  proportion : ℚ

def propShares (peopleIds : List ℕ) (owedCents : Ledger) (taxTipCents : ℤ)
    (totalSubtotalCents : ℤ) : List PropShare :=
  peopleIds.map fun pid =>
    let proportion : ℚ := (owedCents.get pid : ℚ) / (totalSubtotalCents : ℚ)
    { id := pid, share := ⌊(taxTipCents : ℚ) * proportion⌋,
      proportion := proportion }

/-- The comparator `(a, b) => b.proportion - a.proportion`: `a` is placed
before `b` exactly when `b.proportion ≤ a.proportion`. -/
def propOrder (a b : PropShare) : Prop := b.proportion ≤ a.proportion

instance : DecidableRel propOrder := fun a b =>
  inferInstanceAs (Decidable (b.proportion ≤ a.proportion))

/-- `proportionalShares.sort((a, b) => b.proportion - a.proportion)` (stable). -/
def sortPropShares (l : List PropShare) : List PropShare :=
  List.insertionSort propOrder l

/-- `sorted.forEach((ps, index) => owedCents[ps.id] += ps.share + (index < remainingTaxTip ? 1 : 0))`
(every `ps.id` is a roster member, hence already a present key). -/
def applyPropShares (owedCents : Ledger) (sorted : List PropShare)
    (remainingTaxTip : ℤ) : Ledger :=
  owedCents.addShares <| sorted.enum.map fun ie =>
    (ie.2.id, ie.2.share + if (ie.1 : ℤ) < remainingTaxTip then 1 else 0)

/-- The proportional tax/tip branch of `computeRestaurantOwed`: guard
`totalSubtotalCents > 0`, compute the floored proportional shares, sort by
descending proportion and give the first `remainingTaxTip` of them one extra
cent each. -/
def propTaxTipStage (peopleIds : List ℕ) (owedCents : Ledger)
    (taxTipCents : ℤ) : Ledger :=
  let totalSubtotalCents := owedCents.sum
  if 0 < totalSubtotalCents then
    let ps := propShares peopleIds owedCents taxTipCents totalSubtotalCents
    let remainingTaxTip := taxTipCents - (ps.map PropShare.share).sum
    applyPropShares owedCents (sortPropShares ps) remainingTaxTip
  else owedCents

/-- The restaurant scenario state consumed by `computeRestaurantOwed`. -/
structure RestaurantState where
  peopleIds : List ℕ
  items : List ExpenseItem
  taxTipEnabled : Bool
  taxTipAmount : ℚ
  taxTipMethodEqual : Bool

/-- `computeRestaurantOwed()`: item subtotals, then the optional tax/tip,
split equally across the roster or proportionally to the subtotals. -/
def computeRestaurantOwed (s : RestaurantState) : Ledger :=
  let owedCents := computeGroupExpenseOwed s.peopleIds s.items
  if s.taxTipEnabled = true ∧ 0 < s.taxTipAmount then
    let taxTipCents := jsRound (s.taxTipAmount * 100)
    if s.taxTipMethodEqual = true then
      owedCents.addShares (distributeCentsEvenly taxTipCents s.peopleIds)
    else propTaxTipStage s.peopleIds owedCents taxTipCents
  else owedCents

/-- A roster entry: stable id plus display name.  Names are opaque tokens
(embedded as `ℕ`); they need not be distinct. -/
structure RosterPerson where
  id : ℕ
  name : ℕ
deriving DecidableEq

/-- One element of the `people` array built at the top of
`computeSettlement`. -/
structure SettledPerson where
  id : ℕ
  name : ℕ
  owedCents : ℤ
  paidCents : ℤ
  netCents : ℤ
deriving DecidableEq

def mkPeople (roster : List RosterPerson) (owedCents paidCents : Ledger) :
    List SettledPerson :=
  roster.map fun p =>
    { id := p.id, name := p.name, owedCents := owedCents.get p.id,
      paidCents := paidCents.get p.id,
      netCents := paidCents.get p.id - owedCents.get p.id }

/-- `people.reduce((sum, p) => sum + p.netCents, 0)`. -/
def sumNets (people : List SettledPerson) : ℤ :=
  (people.map SettledPerson.netCents).sum

def maxAbsNet (people : List SettledPerson) : ℕ :=
  (people.map fun p => p.netCents.natAbs).foldr max 0

/-- Index of the person that the stable descending sort by `|netCents|`
places first: the earliest person of maximal absolute net value. -/
def correctionIndex (people : List SettledPerson) : ℕ :=
  people.findIdx fun p => p.netCents.natAbs = maxAbsNet people

/-- The rounding correction:
`const sorted = [...people].sort((a, b) => Math.abs(b.netCents) - Math.abs(a.netCents)); sorted[0].netCents -= sumNets;`
The sort is stable, so `sorted[0]` is the earliest person of maximal
`|netCents|`, and the write through the shared object reference updates that
person inside `people`. -/
def applyCorrection (people : List SettledPerson) : List SettledPerson :=
  if sumNets people = 0 then people
  else
    match people[correctionIndex people]? with
    | some p =>
        people.set (correctionIndex people)
          { p with netCents := p.netCents - sumNets people }
    | none => people

/-- A queue entry of the greedy loop (`{ name, amountCents }`). -/
structure Party where
  name : ℕ
  amountCents : ℤ
deriving DecidableEq

/-- A recorded settlement (`{ from, to, amountCents }`). -/
structure Transfer where
  fromName : ℕ
  toName : ℕ
  amountCents : ℤ
deriving DecidableEq

/-- The comparator `(a, b) => b.amountCents - a.amountCents`. -/
def amountOrder (a b : Party) : Prop := b.amountCents ≤ a.amountCents

instance : DecidableRel amountOrder := fun a b =>
  inferInstanceAs (Decidable (b.amountCents ≤ a.amountCents))

/-- Creditor queue: people with `netCents > 0`, in people order, then sorted
descending by amount (stable). -/
def creditorsOf (people : List SettledPerson) : List Party :=
  List.insertionSort amountOrder <|
    (people.filter fun p => 0 < p.netCents).map fun p =>
      { name := p.name, amountCents := p.netCents }

/-- Debtor queue: people with `netCents < 0`, tracked as
`Math.abs(p.netCents)`, in people order, then sorted descending (stable). -/
def debtorsOf (people : List SettledPerson) : List Party :=
  List.insertionSort amountOrder <|
    (people.filter fun p => p.netCents < 0).map fun p =>
      { name := p.name, amountCents := |p.netCents| }

/-- The greedy settlement loop: take the head debtor and head creditor,
transfer `min` of the remaining amounts, record it when positive, and drop
a party exactly when its remaining amount reaches `0`. -/
def settleLoop : List Party → List Party → List Transfer
  | [], _ => []
  | _ :: _, [] => []
  | debtor :: ds, creditor :: cs =>
    let paymentCents := min debtor.amountCents creditor.amountCents
    (if 0 < paymentCents then
        [{ fromName := debtor.name, toName := creditor.name,
           amountCents := paymentCents }]
      else []) ++
    settleLoop
      (if debtor.amountCents - paymentCents = 0 then ds
       else { name := debtor.name,
              amountCents := debtor.amountCents - paymentCents } :: ds)
      (if creditor.amountCents - paymentCents = 0 then cs
       else { name := creditor.name,
              amountCents := creditor.amountCents - paymentCents } :: cs)
termination_by ds cs => ds.length + cs.length
decreasing_by
  split <;> split <;> simp only [List.length_cons] <;> omega

/-- The result of `computeSettlement`. -/
structure SettlementResult where
  people : List SettledPerson
  settlements : List Transfer

def computeSettlement (roster : List RosterPerson)
    (owedCents paidCents : Ledger) : SettlementResult :=
  let people := applyCorrection (mkPeople roster owedCents paidCents)
  { people := people
    settlements := settleLoop (debtorsOf people) (creditorsOf people) }

/-- Total amount transferred to creditor name `n`. -/
def amountTo (n : ℕ) (ts : List Transfer) : ℤ :=
  ((ts.filter fun t => t.toName = n).map Transfer.amountCents).sum

/-- Total amount transferred from debtor name `n`. -/
def amountFrom (n : ℕ) (ts : List Transfer) : ℤ :=
  ((ts.filter fun t => t.fromName = n).map Transfer.amountCents).sum

/-- Total queue amount carried by name `n`. -/
def partyAmt (n : ℕ) (l : List Party) : ℤ :=
  ((l.filter fun e => e.name = n).map Party.amountCents).sum

/-- Total queue amount. -/
def partyTotal (l : List Party) : ℤ :=
  (l.map Party.amountCents).sum

/-! ## Remainder distribution -/

theorem sum_map_ite_range (n : ℕ) (r : ℤ) (hr : 0 ≤ r) :
    ((List.range n).map fun i : ℕ => if (i : ℤ) < r then (1 : ℤ) else 0).sum
      = min r n := by
  induction n with
  | zero => simp; omega
  | succ n ih =>
    rw [List.range_succ, List.map_append, List.sum_append, ih]
    simp only [List.map_cons, List.map_nil, List.sum_cons, List.sum_nil]
    split <;> push_cast <;> omega

theorem distributeCentsEvenly_map_fst (totalCents : ℤ) (pids : List ℕ) :
    (distributeCentsEvenly totalCents pids).map Prod.fst = pids := by
  unfold distributeCentsEvenly
  split
  · simp_all [List.length_eq_zero]
  · rw [List.map_map]
    have : (Prod.fst ∘ fun ip : ℕ × ℕ =>
        ((ip.2 : ℕ), Int.fdiv totalCents pids.length +
          if (ip.1 : ℤ) < totalCents - Int.fdiv totalCents pids.length * pids.length
          then 1 else 0)) = Prod.snd := by
      funext ip; rfl
    rw [this, List.enum_map_snd]

theorem distributeCentsEvenly_map_snd (totalCents : ℤ) (pids : List ℕ) :
    (distributeCentsEvenly totalCents pids).map Prod.snd
      = (List.range pids.length).map fun i : ℕ =>
          Int.fdiv totalCents pids.length +
            if (i : ℤ) < totalCents - Int.fdiv totalCents pids.length * pids.length
            then 1 else 0 := by
  unfold distributeCentsEvenly
  split
  · simp_all [List.length_eq_zero]
  · rw [List.map_map]
    have : (Prod.snd ∘ fun ip : ℕ × ℕ =>
        ((ip.2 : ℕ), Int.fdiv totalCents pids.length +
          if (ip.1 : ℤ) < totalCents - Int.fdiv totalCents pids.length * pids.length
          then 1 else 0)) =
        (fun i : ℕ => Int.fdiv totalCents pids.length +
          if (i : ℤ) < totalCents - Int.fdiv totalCents pids.length * pids.length
          then 1 else 0) ∘ Prod.fst := by
      funext ip; rfl
    rw [this, ← List.map_map, List.enum_map_fst]

/-- The distributed shares always sum to the distributed total, for any
integer total (the floor division leaves a remainder in `[0, count)`). -/
theorem distributeCentsEvenly_sum (totalCents : ℤ) (pids : List ℕ)
    (h : pids ≠ []) :
    ((distributeCentsEvenly totalCents pids).map Prod.snd).sum = totalCents := by
  have hn : 0 < pids.length := List.length_pos.mpr h
  have hfd := Int.fdiv_add_fmod totalCents (pids.length : ℤ)
  have hm0 : 0 ≤ Int.fmod totalCents (pids.length : ℤ) :=
    Int.fmod_nonneg' totalCents (by exact_mod_cast hn)
  have hmlt : Int.fmod totalCents (pids.length : ℤ) < (pids.length : ℤ) :=
    Int.fmod_lt_of_pos totalCents (by exact_mod_cast hn)
  have hrem : totalCents - Int.fdiv totalCents pids.length * pids.length
      = Int.fmod totalCents (pids.length : ℤ) := by
    have h2 : Int.fdiv totalCents (pids.length : ℤ) * (pids.length : ℤ)
        = (pids.length : ℤ) * Int.fdiv totalCents (pids.length : ℤ) :=
      mul_comm _ _
    omega
  rw [distributeCentsEvenly_map_snd, List.sum_map_add, hrem]
  rw [sum_map_ite_range _ _ hm0]
  have hconst : ((List.range pids.length).map
      fun _ => Int.fdiv totalCents pids.length).sum
      = (pids.length : ℤ) * Int.fdiv totalCents pids.length := by
    rw [List.map_const', List.length_range, List.sum_replicate, nsmul_eq_mul]
  rw [hconst, min_eq_left (le_of_lt hmlt)]
  omega

theorem distributeCentsEvenly_getElem (totalCents : ℤ) (pids : List ℕ)
    (i : ℕ) (hi : i < pids.length) :
    (distributeCentsEvenly totalCents pids)[i]? =
      some (pids[i],
        Int.fdiv totalCents pids.length +
          if (i : ℤ) < totalCents - Int.fdiv totalCents pids.length * pids.length
          then 1 else 0) := by
  unfold distributeCentsEvenly
  split
  · omega
  · rw [List.getElem?_map]
    rw [show pids.enum[i]? = some (i, pids[i]) by
      simp [List.getElem?_enum, List.getElem?_eq_getElem hi]]
    rfl

/-- C3, main positive-total contract of `distributeCentsEvenly`. -/
theorem c3_distributeCentsEvenly_contract (totalCents : ℤ) (pids : List ℕ)
    (ht : 0 ≤ totalCents) :
    distributeCentsEvenly totalCents [] = [] ∧
    (pids ≠ [] →
      (distributeCentsEvenly totalCents pids).map Prod.fst = pids ∧
      (∀ i : ℕ, (hi : i < pids.length) →
        (distributeCentsEvenly totalCents pids)[i]? =
          some (pids[i],
            Int.fdiv totalCents pids.length +
              if (i : ℤ) < totalCents -
                  Int.fdiv totalCents pids.length * pids.length
              then 1 else 0)) ∧
      (∀ pr ∈ distributeCentsEvenly totalCents pids, 0 ≤ pr.2) ∧
      ((distributeCentsEvenly totalCents pids).map Prod.snd).sum = totalCents) := by
  refine ⟨rfl, fun h => ⟨distributeCentsEvenly_map_fst _ _,
    fun i hi => distributeCentsEvenly_getElem _ _ i hi, ?_,
    distributeCentsEvenly_sum _ _ h⟩⟩
  intro pr hpr
  have hn : 0 < pids.length := List.length_pos.mpr h
  have hbase : 0 ≤ Int.fdiv totalCents pids.length :=
    Int.fdiv_nonneg ht (by exact_mod_cast Nat.zero_le _)
  unfold distributeCentsEvenly at hpr
  rw [if_neg (by omega)] at hpr
  obtain ⟨ip, _, rfl⟩ := List.mem_map.mp hpr
  dsimp only
  split <;> omega

/-- C3 witness instance. -/
theorem c3_distributeCentsEvenly_contract_witness :
    (0 : ℤ) ≤ 10000 ∧ ([7, 8, 9] : List ℕ) ≠ [] ∧
      ((distributeCentsEvenly 10000 [7, 8, 9]).map Prod.snd).sum = 10000 :=
  ⟨by decide, by decide,
    ((c3_distributeCentsEvenly_contract 10000 [7, 8, 9] (by decide)).2
      (by decide)).2.2.2⟩

/-- C10: conservation for arbitrary (also negative) totals. -/
theorem c10_distributeCentsEvenly_sum_int (totalCents : ℤ) (pids : List ℕ)
    (hne : pids ≠ []) (_hnd : pids.Nodup) :
    ((distributeCentsEvenly totalCents pids).map Prod.snd).sum = totalCents :=
  distributeCentsEvenly_sum totalCents pids hne

/-- C10 witness instance: a negative total. -/
theorem c10_distributeCentsEvenly_sum_int_witness :
    ([3, 5] : List ℕ) ≠ [] ∧ ([3, 5] : List ℕ).Nodup ∧
      ((distributeCentsEvenly (-7) [3, 5]).map Prod.snd).sum = -7 :=
  ⟨by decide, by decide,
    c10_distributeCentsEvenly_sum_int (-7) [3, 5] (by decide) (by decide)⟩

/-! ## Ledger lemmas -/

theorem Ledger.get_ofPeople (ids : List ℕ) (p : ℕ) :
    (Ledger.ofPeople ids).get p = 0 := by
  unfold Ledger.ofPeople Ledger.get
  split <;> rfl

theorem Ledger.sum_ofPeople (ids : List ℕ) : (Ledger.ofPeople ids).sum = 0 := by
  unfold Ledger.sum
  simp [Ledger.get_ofPeople]

theorem Ledger.get_addTo_self (l : Ledger) (p : ℕ) (c : ℤ) :
    (l.addTo p c).get p = l.get p + c := by
  simp [Ledger.addTo, Ledger.get]

theorem Ledger.get_addTo_ne (l : Ledger) (p q : ℕ) (c : ℤ) (h : q ≠ p) :
    (l.addTo p c).get q = l.get q := by
  simp [Ledger.addTo, Ledger.get, Function.update_noteq h, Finset.mem_insert, h]

theorem Ledger.sum_addTo (l : Ledger) (p : ℕ) (c : ℤ) :
    (l.addTo p c).sum = l.sum + c := by
  by_cases hp : p ∈ l.keys
  · have hkeys : (l.addTo p c).keys = l.keys := by
      simp [Ledger.addTo, Finset.insert_eq_self.mpr hp]
    unfold Ledger.sum
    rw [hkeys, ← Finset.sum_erase_add _ _ hp, ← Finset.sum_erase_add _ _ hp]
    have herase : ∀ q ∈ l.keys.erase p, (l.addTo p c).get q = l.get q := by
      intro q hq
      exact Ledger.get_addTo_ne l p q c (Finset.ne_of_mem_erase hq)
    rw [Finset.sum_congr rfl herase, Ledger.get_addTo_self]
    ring
  · have hkeys : (l.addTo p c).keys = insert p l.keys := rfl
    unfold Ledger.sum
    rw [hkeys, Finset.sum_insert hp]
    have hothers : ∀ q ∈ l.keys, (l.addTo p c).get q = l.get q := by
      intro q hq
      exact Ledger.get_addTo_ne l p q c (fun h => hp (h ▸ hq))
    rw [Finset.sum_congr rfl hothers, Ledger.get_addTo_self]
    have : l.get p = 0 := by simp [Ledger.get, hp]
    rw [this]
    ring

theorem Ledger.get_addShares (l : Ledger) (shares : List (ℕ × ℤ)) (q : ℕ) :
    (l.addShares shares).get q
      = l.get q + ((shares.filter fun pr => pr.1 = q).map Prod.snd).sum := by
  induction shares generalizing l with
  | nil => simp [Ledger.addShares]
  | cons pr rest ih =>
    show ((l.addTo pr.1 pr.2).addShares rest).get q = _
    rw [ih]
    by_cases hq : pr.1 = q
    · subst hq
      rw [Ledger.get_addTo_self]
      rw [List.filter_cons, if_pos (by simp)]
      simp only [List.map_cons, List.sum_cons]
      ring
    · rw [Ledger.get_addTo_ne l pr.1 q pr.2 (fun h => hq h.symm)]
      rw [List.filter_cons, if_neg (by simp [hq])]

theorem Ledger.sum_addShares (l : Ledger) (shares : List (ℕ × ℤ)) :
    (l.addShares shares).sum = l.sum + (shares.map Prod.snd).sum := by
  induction shares generalizing l with
  | nil => simp [Ledger.addShares]
  | cons pr rest ih =>
    show ((l.addTo pr.1 pr.2).addShares rest).sum = _
    rw [ih, Ledger.sum_addTo]
    simp
    ring

/-! ## Owed-ledger conservation -/

theorem totalItemCents_of_amount_zero (item : ExpenseItem)
    (h : item.amount = 0) : totalItemCents item = 0 := by
  unfold totalItemCents jsRound
  rw [h]
  norm_num

theorem computeGroupExpenseOwed_sum (peopleIds : List ℕ)
    (items : List ExpenseItem) :
    (computeGroupExpenseOwed peopleIds items).sum
      = ((items.filter fun it => it.participants ≠ []).map totalItemCents).sum := by
  unfold computeGroupExpenseOwed
  have main : ∀ (is : List ExpenseItem) (l0 : Ledger),
      (is.foldl
        (fun owedCents item =>
          if item.participants = [] ∨ item.amount = 0 then owedCents
          else owedCents.addShares
            (distributeCentsEvenly (totalItemCents item) item.participants))
        l0).sum
      = l0.sum + ((is.filter fun it => it.participants ≠ []).map totalItemCents).sum := by
    intro is
    induction is with
    | nil => intro l0; simp
    | cons item rest ih =>
      intro l0
      rw [List.foldl_cons, List.filter_cons]
      by_cases hskip : item.participants = [] ∨ item.amount = 0
      · rcases hskip with hp | ha
        · rw [if_pos (Or.inl hp), ih]
          simp [hp]
        · rw [if_pos (Or.inr ha), ih]
          by_cases hp : item.participants = []
          · simp [hp]
          · simp [hp, totalItemCents_of_amount_zero item ha]
      · push_neg at hskip
        rw [if_neg (by tauto), ih, Ledger.sum_addShares,
          distributeCentsEvenly_sum _ _ hskip.1]
        simp [hskip.1]
        ring
  rw [main]
  simp [Ledger.sum_ofPeople]

/-- C4 (amended): the owed ledger conserves the totals of the expenses that
have at least one participant; expenses with an empty participant list
contribute nothing.  Stated for the group-expense aggregation and for the
restaurant aggregation with the tax/tip charge disabled. -/
theorem c4_owed_conservation_amended :
    (∀ (peopleIds : List ℕ) (items : List ExpenseItem),
      (∀ it ∈ items, it.participants.Nodup) →
      (computeGroupExpenseOwed peopleIds items).sum
        = ((items.filter fun it => it.participants ≠ []).map totalItemCents).sum) ∧
    (∀ s : RestaurantState,
      (∀ it ∈ s.items, it.participants.Nodup) →
      ¬(s.taxTipEnabled = true ∧ 0 < s.taxTipAmount) →
      (computeRestaurantOwed s).sum
        = ((s.items.filter fun it => it.participants ≠ []).map totalItemCents).sum) := by
  constructor
  · intro peopleIds items _
    exact computeGroupExpenseOwed_sum peopleIds items
  · intro s _ htax
    unfold computeRestaurantOwed
    rw [if_neg htax]
    exact computeGroupExpenseOwed_sum s.peopleIds s.items

/-- C4 witness instance. -/
theorem c4_owed_conservation_amended_witness :
    (∀ it ∈ ([⟨1, 2, [0, 1]⟩] : List ExpenseItem), it.participants.Nodup) ∧
    (computeGroupExpenseOwed [0, 1] [⟨1, 2, [0, 1]⟩]).sum
      = ((([⟨1, 2, [0, 1]⟩] : List ExpenseItem).filter
          fun it => it.participants ≠ []).map totalItemCents).sum :=
  ⟨by decide, c4_owed_conservation_amended.1 [0, 1] [⟨1, 2, [0, 1]⟩] (by decide)⟩

/-- C4 counterexample: one expense of total `100` cents with an empty
participant list; the owed ledger sums to `0`, not to the expense total. -/
theorem c4_owed_conservation_counterexample :
    (computeGroupExpenseOwed [0] [⟨1, 1, []⟩]).sum = 0 ∧
    (([⟨1, 1, []⟩] : List ExpenseItem).map totalItemCents).sum = 100 ∧
    (computeGroupExpenseOwed [0] [⟨1, 1, []⟩]).sum
      ≠ (([⟨1, 1, []⟩] : List ExpenseItem).map totalItemCents).sum := by
  have h1 : (computeGroupExpenseOwed [0] [⟨1, 1, []⟩]).sum = 0 := by
    unfold computeGroupExpenseOwed
    simp [Ledger.sum_ofPeople]
  have h2 : totalItemCents ⟨1, 1, []⟩ = 100 := by
    unfold totalItemCents jsRound
    norm_num
  exact ⟨h1, by simp [h2], by rw [h1]; simp [h2]⟩

/-! ## Defensive input handling -/

/-- C8 (amended): a non-numeric amount parses to `0`; quantities are clamped
to `≥ 1` (non-positive and non-numeric to `1`); `parseToCents` maps negative
input to `0`; the engine is total and degenerate input (no expenses, tax/tip
off) yields all-zero ledgers.  A negative amount stored through the expense
amount handler is, however, not clamped (see the counterexample). -/
theorem c8_defensive_clamping_amended :
    parseAmountInput none = 0 ∧
    (∀ v : Option ℤ, 1 ≤ parseQtyInput v) ∧
    (parseQtyInput none = 1 ∧ ∀ n : ℤ, n ≤ 0 → parseQtyInput (some n) = 1) ∧
    (∀ q : ℚ, q < 0 → parseToCents (some q) = 0) ∧
    (∀ (peopleIds : List ℕ) (p : ℕ),
      (computeGroupExpenseOwed peopleIds []).get p = 0) ∧
    (∀ s : RestaurantState, s.items = [] → s.taxTipEnabled = false →
      ∀ p : ℕ, (computeRestaurantOwed s).get p = 0) := by
  refine ⟨rfl, ?_, ⟨rfl, ?_⟩, ?_, ?_, ?_⟩
  · intro v
    exact le_max_left 1 _
  · intro n hn
    show max 1 (if n = 0 then 1 else n) = 1
    by_cases h0 : n = 0
    · rw [if_pos h0]
      decide
    · rw [if_neg h0]
      omega
  · intro q hq
    show (if q < 0 then (0 : ℤ) else jsRound (q * 100)) = 0
    rw [if_pos hq]
  · intro peopleIds p
    unfold computeGroupExpenseOwed
    rw [List.foldl_nil]
    exact Ledger.get_ofPeople peopleIds p
  · intro s hitems htax p
    unfold computeRestaurantOwed
    rw [if_neg (by simp [htax])]
    unfold computeGroupExpenseOwed
    rw [hitems, List.foldl_nil]
    exact Ledger.get_ofPeople s.peopleIds p

/-- C8 witness instance. -/
theorem c8_defensive_clamping_amended_witness :
    (-1 : ℚ) < 0 ∧ parseToCents (some (-1)) = 0 ∧
    (-3 : ℤ) ≤ 0 ∧ parseQtyInput (some (-3)) = 1 ∧
    (computeRestaurantOwed ⟨[0], [], false, 0, true⟩).get 0 = 0 :=
  ⟨by norm_num, c8_defensive_clamping_amended.2.2.2.1 (-1) (by norm_num),
    by decide, c8_defensive_clamping_amended.2.2.1.2 (-3) (by decide),
    c8_defensive_clamping_amended.2.2.2.2.2 ⟨[0], [], false, 0, true⟩
      rfl rfl 0⟩

/-- C8 counterexample: an expense with the (unclamped) negative amount `-1`
produces an owed ledger different from the one with the amount replaced by
`0`: the sole participant is credited `-100` cents, not `0`. -/
theorem c8_clamping_counterexample :
    (computeGroupExpenseOwed [0] [⟨-1, 1, [0]⟩]).get 0 = -100 ∧
    (computeGroupExpenseOwed [0] [⟨0, 1, [0]⟩]).get 0 = 0 ∧
    (computeGroupExpenseOwed [0] [⟨-1, 1, [0]⟩]).get 0
      ≠ (computeGroupExpenseOwed [0] [⟨0, 1, [0]⟩]).get 0 := by
  have ht : totalItemCents ⟨-1, 1, [0]⟩ = -100 := by
    unfold totalItemCents jsRound
    norm_num
  have h1 : (computeGroupExpenseOwed [0] [⟨-1, 1, [0]⟩]).get 0 = -100 := by
    unfold computeGroupExpenseOwed
    rw [List.foldl_cons, List.foldl_nil, if_neg (by norm_num), ht]
    rw [show distributeCentsEvenly (-100) [0] = [(0, -100)] from by decide]
    rw [Ledger.get_addShares, Ledger.get_ofPeople]
    decide
  have h2 : (computeGroupExpenseOwed [0] [⟨0, 1, [0]⟩]).get 0 = 0 := by
    unfold computeGroupExpenseOwed
    rw [List.foldl_cons, List.foldl_nil, if_pos (by norm_num)]
    exact Ledger.get_ofPeople [0] 0
  exact ⟨h1, h2, by rw [h1, h2]; decide⟩

/-! ## Rounding correction -/

theorem maxAbsNet_cons (p : SettledPerson) (rest : List SettledPerson) :
    maxAbsNet (p :: rest) = max p.netCents.natAbs (maxAbsNet rest) := rfl

theorem le_maxAbsNet (ps : List SettledPerson) (p : SettledPerson)
    (hp : p ∈ ps) : p.netCents.natAbs ≤ maxAbsNet ps := by
  induction ps with
  | nil => cases hp
  | cons q rest ih =>
    rw [maxAbsNet_cons]
    rcases List.mem_cons.mp hp with h | h
    · subst h; omega
    · have := ih h; omega

theorem exists_maxAbsNet (ps : List SettledPerson) (h : ps ≠ []) :
    ∃ p ∈ ps, p.netCents.natAbs = maxAbsNet ps := by
  induction ps with
  | nil => exact absurd rfl h
  | cons p rest ih =>
    rcases eq_or_ne rest [] with hr | hr
    · subst hr
      refine ⟨p, List.mem_cons_self p [], ?_⟩
      rw [maxAbsNet_cons]
      have : maxAbsNet [] = 0 := rfl
      omega
    · obtain ⟨q, hq, hqmax⟩ := ih hr
      by_cases hle : maxAbsNet rest ≤ p.netCents.natAbs
      · exact ⟨p, List.mem_cons_self p rest, by rw [maxAbsNet_cons]; omega⟩
      · exact ⟨q, List.mem_cons_of_mem p hq, by rw [maxAbsNet_cons]; omega⟩

theorem correctionIndex_lt_length (ps : List SettledPerson) (h : ps ≠ []) :
    correctionIndex ps < ps.length := by
  obtain ⟨p, hp, hmax⟩ := exists_maxAbsNet ps h
  exact List.findIdx_lt_length_of_exists ⟨p, hp, by simp [hmax]⟩

theorem sum_map_set_net : ∀ (l : List SettledPerson) (i : ℕ)
    (a : SettledPerson) (h : i < l.length),
    ((l.set i a).map SettledPerson.netCents).sum
      = (l.map SettledPerson.netCents).sum + a.netCents - l[i].netCents := by
  intro l
  induction l with
  | nil => intro i a h; simp at h
  | cons b rest ih =>
    intro i a h
    cases i with
    | zero =>
      simp only [List.set_cons_zero, List.map_cons, List.sum_cons,
        List.getElem_cons_zero]
      ring
    | succ n =>
      have hn : n < rest.length := by
        simpa [List.length_cons] using h
      simp only [List.set_cons_succ, List.map_cons, List.sum_cons,
        List.getElem_cons_succ]
      rw [ih n a hn]
      ring

theorem list_set_self : ∀ (l : List ℕ) (i : ℕ) (h : i < l.length),
    l.set i l[i] = l := by
  intro l
  induction l with
  | nil => intro i h; simp at h
  | cons b rest ih =>
    intro i h
    cases i with
    | zero => simp
    | succ n =>
      have hn : n < rest.length := by simpa [List.length_cons] using h
      simp only [List.getElem_cons_succ, List.set_cons_succ, List.cons.injEq,
        true_and]
      exact ih n hn

theorem sumNets_applyCorrection (ps : List SettledPerson) :
    sumNets (applyCorrection ps) = 0 := by
  by_cases hs : sumNets ps = 0
  · rw [applyCorrection, if_pos hs]
    exact hs
  · have hne : ps ≠ [] := by
      intro hnil
      exact hs (by rw [hnil]; rfl)
    have hlt := correctionIndex_lt_length ps hne
    rw [applyCorrection, if_neg hs, List.getElem?_eq_getElem hlt]
    show sumNets (ps.set (correctionIndex ps)
      { ps[correctionIndex ps] with
        netCents := ps[correctionIndex ps].netCents - sumNets ps }) = 0
    unfold sumNets
    rw [sum_map_set_net ps _ _ hlt]
    show (ps.map SettledPerson.netCents).sum +
      (ps[correctionIndex ps].netCents - (ps.map SettledPerson.netCents).sum)
      - ps[correctionIndex ps].netCents = 0
    ring

/-- C2: for every roster and every pair of integer-cent ledgers, the sum of
the per-person net balances after `computeSettlement`'s rounding correction
is exactly zero. -/
theorem c2_zero_sum_after_correction (roster : List RosterPerson)
    (owedCents paidCents : Ledger) :
    sumNets (computeSettlement roster owedCents paidCents).people = 0 :=
  sumNets_applyCorrection (mkPeople roster owedCents paidCents)

/-- C9: when the raw net balances do not sum to zero, the correction touches
exactly one person: the first (in people order) of maximal absolute net
value, i.e. the person a stable descending sort by `|netCents|` places
first.  That person's net drops by the imbalance, everyone else's entry is
unchanged, every reported owed/paid value (including the corrected person's)
is unchanged, and every other net is still `paid - owed`. -/
theorem c9_correction_frame (roster : List RosterPerson)
    (owedCents paidCents : Ledger) (ps : List SettledPerson)
    (hps : ps = mkPeople roster owedCents paidCents)
    (hs : sumNets ps ≠ 0) :
    correctionIndex ps < ps.length ∧
    (∀ j, j ≠ correctionIndex ps →
      (applyCorrection ps)[j]? = ps[j]?) ∧
    (∃ p, ps[correctionIndex ps]? = some p ∧
      (applyCorrection ps)[correctionIndex ps]?
        = some { p with netCents := p.netCents - sumNets ps } ∧
      p.netCents.natAbs = maxAbsNet ps ∧
      (∀ j, j < correctionIndex ps → ∀ q : SettledPerson, ps[j]? = some q →
        q.netCents.natAbs < maxAbsNet ps)) ∧
    (∀ (j : ℕ) (q : SettledPerson), (applyCorrection ps)[j]? = some q →
      ∃ q0 : SettledPerson, ps[j]? = some q0 ∧ q.id = q0.id ∧
        q.name = q0.name ∧
        q.owedCents = q0.owedCents ∧ q.paidCents = q0.paidCents) ∧
    (∀ (j : ℕ) (q : SettledPerson), j ≠ correctionIndex ps →
      (applyCorrection ps)[j]? = some q →
      q.netCents = q.paidCents - q.owedCents) := by
  have hne : ps ≠ [] := by
    intro hnil
    exact hs (by rw [hnil]; rfl)
  have hlt := correctionIndex_lt_length ps hne
  have hcorr : applyCorrection ps = ps.set (correctionIndex ps)
      { ps[correctionIndex ps] with
        netCents := ps[correctionIndex ps].netCents - sumNets ps } := by
    rw [applyCorrection, if_neg hs, List.getElem?_eq_getElem hlt]
  have hframe : ∀ j, j ≠ correctionIndex ps →
      (applyCorrection ps)[j]? = ps[j]? := by
    intro j hj
    rw [hcorr, List.getElem?_set]
    rw [if_neg (fun h => hj h.symm)]
  have hmax : ps[correctionIndex ps].netCents.natAbs = maxAbsNet ps := by
    have h := @List.findIdx_getElem SettledPerson
      (fun p => decide (p.netCents.natAbs = maxAbsNet ps)) ps hlt
    simpa using h
  refine ⟨hlt, hframe, ⟨ps[correctionIndex ps],
    List.getElem?_eq_getElem hlt, ?_, hmax, ?_⟩, ?_, ?_⟩
  · rw [hcorr, List.getElem?_set, if_pos rfl, if_pos hlt]
  · intro j hj q hq
    have hjlen : j < ps.length := by omega
    rw [List.getElem?_eq_getElem hjlen] at hq
    have hqeq : ps[j] = q := Option.some.inj hq
    have hfalse := @List.not_of_lt_findIdx SettledPerson
      (fun p => decide (p.netCents.natAbs = maxAbsNet ps)) ps j hj
    have hle := le_maxAbsNet ps ps[j] (List.getElem_mem hjlen)
    rw [hqeq] at hfalse hle
    simp only [decide_eq_false_iff_not] at hfalse
    omega
  · intro j q hq
    by_cases hj : j = correctionIndex ps
    · subst hj
      rw [hcorr, List.getElem?_set, if_pos rfl, if_pos hlt] at hq
      cases Option.some.inj hq
      exact ⟨ps[correctionIndex ps], List.getElem?_eq_getElem hlt,
        rfl, rfl, rfl, rfl⟩
    · rw [hframe j hj] at hq
      exact ⟨q, hq, rfl, rfl, rfl, rfl⟩
  · intro j q hj hq
    rw [hframe j hj] at hq
    have hmem : q ∈ ps := List.getElem?_mem hq
    rw [hps] at hmem
    obtain ⟨r, _, rfl⟩ := List.mem_map.mp hmem
    rfl

/-- C9 witness instance: one person, `paid = 7`, `owed = 0`, so the raw sum
of nets is `7 ≠ 0`. -/
theorem c9_correction_frame_witness :
    ([⟨0, 10, 0, 7, 7⟩] : List SettledPerson)
        = mkPeople [⟨0, 10⟩] (Ledger.ofPeople []) ⟨{0}, fun _ => 7⟩ ∧
    sumNets [⟨0, 10, 0, 7, 7⟩] ≠ 0 ∧
    (correctionIndex [⟨0, 10, 0, 7, 7⟩]
        < ([⟨0, 10, 0, 7, 7⟩] : List SettledPerson).length ∧
      (∀ j, j ≠ correctionIndex [⟨0, 10, 0, 7, 7⟩] →
        (applyCorrection [⟨0, 10, 0, 7, 7⟩])[j]?
          = ([⟨0, 10, 0, 7, 7⟩] : List SettledPerson)[j]?) ∧
      (∃ p, ([⟨0, 10, 0, 7, 7⟩] :
            List SettledPerson)[correctionIndex [⟨0, 10, 0, 7, 7⟩]]? = some p ∧
        (applyCorrection [⟨0, 10, 0, 7, 7⟩])[correctionIndex [⟨0, 10, 0, 7, 7⟩]]?
          = some { p with
              netCents := p.netCents - sumNets [⟨0, 10, 0, 7, 7⟩] } ∧
        p.netCents.natAbs = maxAbsNet [⟨0, 10, 0, 7, 7⟩] ∧
        (∀ j, j < correctionIndex [⟨0, 10, 0, 7, 7⟩] →
          ∀ q : SettledPerson,
            ([⟨0, 10, 0, 7, 7⟩] : List SettledPerson)[j]? = some q →
            q.netCents.natAbs < maxAbsNet [⟨0, 10, 0, 7, 7⟩])) ∧
      (∀ (j : ℕ) (q : SettledPerson),
        (applyCorrection [⟨0, 10, 0, 7, 7⟩])[j]? = some q →
        ∃ q0 : SettledPerson,
          ([⟨0, 10, 0, 7, 7⟩] : List SettledPerson)[j]? = some q0 ∧
          q.id = q0.id ∧ q.name = q0.name ∧
          q.owedCents = q0.owedCents ∧ q.paidCents = q0.paidCents) ∧
      (∀ (j : ℕ) (q : SettledPerson),
        j ≠ correctionIndex [⟨0, 10, 0, 7, 7⟩] →
        (applyCorrection [⟨0, 10, 0, 7, 7⟩])[j]? = some q →
        q.netCents = q.paidCents - q.owedCents)) :=
  ⟨by decide, by decide,
    c9_correction_frame [⟨0, 10⟩] (Ledger.ofPeople []) ⟨{0}, fun _ => 7⟩
      [⟨0, 10, 0, 7, 7⟩] (by decide) (by decide)⟩

/-! ## Greedy settlement loop -/

theorem amountTo_cons (n : ℕ) (t : Transfer) (ts : List Transfer) :
    amountTo n (t :: ts)
      = (if t.toName = n then t.amountCents else 0) + amountTo n ts := by
  unfold amountTo
  rw [List.filter_cons]
  by_cases h : t.toName = n
  · simp [h]
  · simp [h]

theorem amountFrom_cons (n : ℕ) (t : Transfer) (ts : List Transfer) :
    amountFrom n (t :: ts)
      = (if t.fromName = n then t.amountCents else 0) + amountFrom n ts := by
  unfold amountFrom
  rw [List.filter_cons]
  by_cases h : t.fromName = n
  · simp [h]
  · simp [h]

theorem partyAmt_cons (n : ℕ) (e : Party) (l : List Party) :
    partyAmt n (e :: l)
      = (if e.name = n then e.amountCents else 0) + partyAmt n l := by
  unfold partyAmt
  rw [List.filter_cons]
  by_cases h : e.name = n
  · simp [h]
  · simp [h]

theorem partyTotal_cons (e : Party) (l : List Party) :
    partyTotal (e :: l) = e.amountCents + partyTotal l := by
  unfold partyTotal
  simp

theorem partyTotal_nonneg (l : List Party)
    (h : ∀ e ∈ l, 0 < e.amountCents) : 0 ≤ partyTotal l := by
  apply List.sum_nonneg
  intro x hx
  obtain ⟨e, he, rfl⟩ := List.mem_map.mp hx
  exact le_of_lt (h e he)

theorem eq_nil_of_partyTotal_zero (l : List Party)
    (hpos : ∀ e ∈ l, 0 < e.amountCents) (h0 : partyTotal l = 0) : l = [] := by
  cases l with
  | nil => rfl
  | cons e rest =>
    exfalso
    have h1 : 0 < e.amountCents := hpos e (List.mem_cons_self e rest)
    have h2 : 0 ≤ partyTotal rest :=
      partyTotal_nonneg rest (fun x hx => hpos x (List.mem_cons_of_mem e hx))
    rw [partyTotal_cons] at h0
    omega

theorem partyTotal_nil : partyTotal [] = 0 := rfl

/-- Flow balance of the greedy loop: with positive queue entries and equal
queue totals, the recorded transfers move, for every name, exactly its
creditor amount in and its debtor amount out. -/
theorem settleLoop_flow (ds cs : List Party) :
    (∀ e ∈ ds, 0 < e.amountCents) → (∀ e ∈ cs, 0 < e.amountCents) →
    partyTotal ds = partyTotal cs → ∀ n : ℕ,
    amountTo n (settleLoop ds cs) - amountFrom n (settleLoop ds cs)
      = partyAmt n cs - partyAmt n ds := by
  induction ds, cs using settleLoop.induct with
  | case1 cs =>
    intro _ hc hbal n
    have hcs : cs = [] := eq_nil_of_partyTotal_zero cs hc
      (by rw [← hbal, partyTotal_nil])
    subst hcs
    simp [settleLoop, amountTo, amountFrom, partyAmt]
  | case2 d ds =>
    intro hd _ hbal n
    exfalso
    have h1 : 0 < d.amountCents := hd d (List.mem_cons_self d ds)
    have h2 : 0 ≤ partyTotal ds :=
      partyTotal_nonneg ds (fun x hx => hd x (List.mem_cons_of_mem d hx))
    rw [partyTotal_cons, partyTotal_nil] at hbal
    omega
  | case3 d ds c cs pay ih =>
    intro hd hc hbal n
    simp only [dite_eq_ite] at ih
    have hpayv : pay = min d.amountCents c.amountCents := rfl
    have hdpos : 0 < d.amountCents := hd d (List.mem_cons_self d ds)
    have hcpos : 0 < c.amountCents := hc c (List.mem_cons_self c cs)
    have hpay : 0 < pay := by
      rw [hpayv]
      exact lt_min hdpos hcpos
    have hled : pay ≤ d.amountCents := by
      rw [hpayv]
      exact min_le_left _ _
    have hlec : pay ≤ c.amountCents := by
      rw [hpayv]
      exact min_le_right _ _
    have hd' : ∀ e ∈ (if d.amountCents - pay = 0 then ds
        else { name := d.name, amountCents := d.amountCents - pay } :: ds),
        0 < e.amountCents := by
      intro e he
      by_cases hdrop : d.amountCents - pay = 0
      · rw [if_pos hdrop] at he
        exact hd e (List.mem_cons_of_mem d he)
      · rw [if_neg hdrop] at he
        rcases List.mem_cons.mp he with rfl | he'
        · dsimp
          omega
        · exact hd e (List.mem_cons_of_mem d he')
    have hc' : ∀ e ∈ (if c.amountCents - pay = 0 then cs
        else { name := c.name, amountCents := c.amountCents - pay } :: cs),
        0 < e.amountCents := by
      intro e he
      by_cases hdrop : c.amountCents - pay = 0
      · rw [if_pos hdrop] at he
        exact hc e (List.mem_cons_of_mem c he)
      · rw [if_neg hdrop] at he
        rcases List.mem_cons.mp he with rfl | he'
        · dsimp
          omega
        · exact hc e (List.mem_cons_of_mem c he')
    have htd : partyTotal (if d.amountCents - pay = 0 then ds
        else { name := d.name, amountCents := d.amountCents - pay } :: ds)
        = partyTotal (d :: ds) - pay := by
      by_cases hdrop : d.amountCents - pay = 0
      · rw [if_pos hdrop, partyTotal_cons]
        omega
      · rw [if_neg hdrop, partyTotal_cons, partyTotal_cons]
        dsimp
        ring
    have htc : partyTotal (if c.amountCents - pay = 0 then cs
        else { name := c.name, amountCents := c.amountCents - pay } :: cs)
        = partyTotal (c :: cs) - pay := by
      by_cases hdrop : c.amountCents - pay = 0
      · rw [if_pos hdrop, partyTotal_cons]
        omega
      · rw [if_neg hdrop, partyTotal_cons, partyTotal_cons]
        dsimp
        ring
    have hbal' : partyTotal (if d.amountCents - pay = 0 then ds
        else { name := d.name, amountCents := d.amountCents - pay } :: ds)
        = partyTotal (if c.amountCents - pay = 0 then cs
        else { name := c.name, amountCents := c.amountCents - pay } :: cs) := by
      rw [htd, htc, hbal]
    have hrec := ih hd' hc' hbal' n
    have hpd : partyAmt n (if d.amountCents - pay = 0 then ds
        else { name := d.name, amountCents := d.amountCents - pay } :: ds)
        = partyAmt n (d :: ds) - (if d.name = n then pay else 0) := by
      by_cases hdrop : d.amountCents - pay = 0
      · rw [if_pos hdrop, partyAmt_cons]
        split <;> omega
      · rw [if_neg hdrop, partyAmt_cons, partyAmt_cons]
        dsimp
        split <;> ring
    have hpc : partyAmt n (if c.amountCents - pay = 0 then cs
        else { name := c.name, amountCents := c.amountCents - pay } :: cs)
        = partyAmt n (c :: cs) - (if c.name = n then pay else 0) := by
      by_cases hdrop : c.amountCents - pay = 0
      · rw [if_pos hdrop, partyAmt_cons]
        split <;> omega
      · rw [if_neg hdrop, partyAmt_cons, partyAmt_cons]
        dsimp
        split <;> ring
    rw [hpd, hpc] at hrec
    simp only [settleLoop]
    rw [show min d.amountCents c.amountCents = pay from hpayv.symm]
    rw [if_pos hpay, List.singleton_append, amountTo_cons, amountFrom_cons]
    dsimp only
    split_ifs at hrec ⊢ <;> omega

/-- The greedy loop records at most `(total queue size) - 1` transfers. -/
theorem settleLoop_length_le (ds cs : List Party) :
    (settleLoop ds cs).length ≤ ds.length + cs.length - 1 := by
  induction ds, cs using settleLoop.induct with
  | case1 cs => simp [settleLoop]
  | case2 d ds => simp [settleLoop]
  | case3 d ds c cs pay ih =>
    simp only [dite_eq_ite] at ih
    have hpayv : pay = min d.amountCents c.amountCents := rfl
    simp only [settleLoop, List.length_append]
    rw [show min d.amountCents c.amountCents = pay from hpayv.symm]
    have hlen1 : (if 0 < pay then
        [{ fromName := d.name, toName := c.name, amountCents := pay }]
      else ([] : List Transfer)).length ≤ 1 := by
      split <;> simp
    split_ifs at ih ⊢ <;>
      (try simp only [List.length_cons, List.length_singleton,
        List.length_nil] at ih) <;>
      (try simp only [List.length_cons, List.length_singleton,
        List.length_nil]) <;>
      omega

/-! ## Settlement correctness and transfer-count bound -/

theorem partyAmt_zero_of_names (n : ℕ) (l : List Party)
    (h : ∀ e ∈ l, e.name ≠ n) : partyAmt n l = 0 := by
  induction l with
  | nil => rfl
  | cons e rest ih =>
    rw [partyAmt_cons, if_neg (h e (List.mem_cons_self e rest)),
      ih (fun x hx => h x (List.mem_cons_of_mem e hx))]
    ring

theorem partyAmt_insertionSort (n : ℕ) (l : List Party) :
    partyAmt n (List.insertionSort amountOrder l) = partyAmt n l := by
  unfold partyAmt
  exact (((List.perm_insertionSort amountOrder l).filter _).map _).sum_eq

theorem partyTotal_insertionSort (l : List Party) :
    partyTotal (List.insertionSort amountOrder l) = partyTotal l := by
  unfold partyTotal
  exact ((List.perm_insertionSort amountOrder l).map _).sum_eq

theorem mem_insertionSort_party (l : List Party) (e : Party) :
    e ∈ List.insertionSort amountOrder l ↔ e ∈ l :=
  (List.perm_insertionSort amountOrder l).mem_iff

/-- For a people list with pairwise distinct names, the creditor/debtor
queue amount carried by a member's name is exactly that member's entry. -/
theorem partyAmt_of_people (g : SettledPerson → ℤ) (pred : SettledPerson → Bool)
    (ps : List SettledPerson) (hnd : (ps.map SettledPerson.name).Nodup)
    (p : SettledPerson) (hp : p ∈ ps) :
    partyAmt p.name ((ps.filter pred).map fun q =>
        { name := q.name, amountCents := g q })
      = if pred p = true then g p else 0 := by
  induction ps with
  | nil => cases hp
  | cons q rest ih =>
    have hnd2 := List.nodup_cons.mp hnd
    have hqnot : q.name ∉ rest.map SettledPerson.name := hnd2.1
    rw [List.filter_cons]
    rcases List.mem_cons.mp hp with rfl | hp'
    · have hrest0 : partyAmt p.name ((rest.filter pred).map fun q =>
          { name := q.name, amountCents := g q }) = 0 := by
        apply partyAmt_zero_of_names
        intro e he
        obtain ⟨r, hr, rfl⟩ := List.mem_map.mp he
        have hrmem : r ∈ rest := List.mem_of_mem_filter hr
        intro hEq
        exact hqnot (hEq ▸ List.mem_map_of_mem SettledPerson.name hrmem)
      by_cases hpred : pred p = true
      · rw [if_pos hpred, if_pos hpred, List.map_cons, partyAmt_cons,
          if_pos rfl, hrest0]
        ring
      · rw [if_neg hpred, if_neg hpred, hrest0]
    · have hpname : p.name ∈ rest.map SettledPerson.name :=
        List.mem_map_of_mem SettledPerson.name hp'
      have hne : q.name ≠ p.name := fun hEq => hqnot (hEq ▸ hpname)
      by_cases hpred : pred q = true
      · rw [if_pos hpred, List.map_cons, partyAmt_cons, if_neg hne,
          ih hnd2.2 hp']
        ring
      · rw [if_neg hpred, ih hnd2.2 hp']

/-- Creditor total minus debtor total equals the sum of nets. -/
theorem creditors_sub_debtors (ps : List SettledPerson) :
    partyTotal ((ps.filter fun p => 0 < p.netCents).map fun p =>
        { name := p.name, amountCents := p.netCents })
      - partyTotal ((ps.filter fun p => p.netCents < 0).map fun p =>
        { name := p.name, amountCents := |p.netCents| })
      = sumNets ps := by
  induction ps with
  | nil => rfl
  | cons p rest ih =>
    have hsum : sumNets (p :: rest) = p.netCents + sumNets rest := by
      unfold sumNets
      simp
    rw [List.filter_cons, List.filter_cons, hsum]
    rcases lt_trichotomy p.netCents 0 with h | h | h
    · rw [if_neg (by simp; omega), if_pos (by simp [h]), List.map_cons,
        partyTotal_cons]
      have habs : |p.netCents| = -p.netCents := abs_of_neg h
      dsimp
      rw [habs]
      omega
    · rw [if_neg (by simp [h]), if_neg (by simp [h])]
      omega
    · rw [if_pos (by simp [h]), if_neg (by simp; omega), List.map_cons,
        partyTotal_cons]
      dsimp
      omega

theorem mkPeople_map_name (roster : List RosterPerson)
    (owedCents paidCents : Ledger) :
    (mkPeople roster owedCents paidCents).map SettledPerson.name
      = roster.map RosterPerson.name := by
  unfold mkPeople
  rw [List.map_map]
  rfl

theorem applyCorrection_map_name (ps : List SettledPerson) :
    (applyCorrection ps).map SettledPerson.name
      = ps.map SettledPerson.name := by
  by_cases hs : sumNets ps = 0
  · rw [applyCorrection, if_pos hs]
  · have hne : ps ≠ [] := by
      intro hnil
      exact hs (by rw [hnil]; rfl)
    have hlt := correctionIndex_lt_length ps hne
    rw [applyCorrection, if_neg hs, List.getElem?_eq_getElem hlt]
    show (ps.set (correctionIndex ps)
      { ps[correctionIndex ps] with
        netCents := ps[correctionIndex ps].netCents - sumNets ps }).map
        SettledPerson.name = ps.map SettledPerson.name
    rw [List.map_set]
    have hlen : correctionIndex ps < (ps.map SettledPerson.name).length := by
      rw [List.length_map]
      exact hlt
    have hv : ({ ps[correctionIndex ps] with
        netCents := ps[correctionIndex ps].netCents - sumNets ps } :
          SettledPerson).name
        = (ps.map SettledPerson.name)[correctionIndex ps] := by
      rw [List.getElem_map]
    rw [hv, list_set_self _ _ hlen]

/-- C1: for every roster with distinct display names and every pair of
ledgers, applying each settlement transfer (decreasing the debtor's
outstanding debt and the creditor's outstanding claim) brings every
person's rounding-corrected net balance to exactly zero. -/
theorem c1_settlement_correctness (roster : List RosterPerson)
    (owedCents paidCents : Ledger)
    (hnames : (roster.map RosterPerson.name).Nodup) :
    ∀ p ∈ (computeSettlement roster owedCents paidCents).people,
      p.netCents
        + amountFrom p.name (computeSettlement roster owedCents paidCents).settlements
        - amountTo p.name (computeSettlement roster owedCents paidCents).settlements
      = 0 := by
  intro p hp
  have hppl : (computeSettlement roster owedCents paidCents).people
      = applyCorrection (mkPeople roster owedCents paidCents) := rfl
  have hset : (computeSettlement roster owedCents paidCents).settlements
      = settleLoop
          (debtorsOf (applyCorrection (mkPeople roster owedCents paidCents)))
          (creditorsOf (applyCorrection (mkPeople roster owedCents paidCents)))
      := rfl
  rw [hppl] at hp
  rw [hset]
  generalize hq : applyCorrection (mkPeople roster owedCents paidCents) = ps
      at hp
  have hnodup : (ps.map SettledPerson.name).Nodup := by
    rw [← hq, applyCorrection_map_name, mkPeople_map_name]
    exact hnames
  have hzero : sumNets ps = 0 := by
    rw [← hq]
    exact sumNets_applyCorrection _
  have hdpos : ∀ e ∈ debtorsOf ps, 0 < e.amountCents := by
    intro e he
    unfold debtorsOf at he
    rw [mem_insertionSort_party] at he
    obtain ⟨r, hr, rfl⟩ := List.mem_map.mp he
    have hlt := List.of_mem_filter hr
    simp only [decide_eq_true_eq] at hlt
    dsimp
    exact abs_pos.mpr (ne_of_lt hlt)
  have hcpos : ∀ e ∈ creditorsOf ps, 0 < e.amountCents := by
    intro e he
    unfold creditorsOf at he
    rw [mem_insertionSort_party] at he
    obtain ⟨r, hr, rfl⟩ := List.mem_map.mp he
    have hlt := List.of_mem_filter hr
    simp only [decide_eq_true_eq] at hlt
    exact hlt
  have hbal : partyTotal (debtorsOf ps) = partyTotal (creditorsOf ps) := by
    unfold debtorsOf creditorsOf
    rw [partyTotal_insertionSort, partyTotal_insertionSort]
    have hsplit := creditors_sub_debtors ps
    omega
  have hflow := settleLoop_flow (debtorsOf ps) (creditorsOf ps)
    hdpos hcpos hbal p.name
  have hcred : partyAmt p.name (creditorsOf ps)
      = if 0 < p.netCents then p.netCents else 0 := by
    unfold creditorsOf
    rw [partyAmt_insertionSort]
    have := partyAmt_of_people SettledPerson.netCents
      (fun p => 0 < p.netCents) ps hnodup p hp
    simpa using this
  have hdebt : partyAmt p.name (debtorsOf ps)
      = if p.netCents < 0 then |p.netCents| else 0 := by
    unfold debtorsOf
    rw [partyAmt_insertionSort]
    have := partyAmt_of_people (fun p => |p.netCents|)
      (fun p => p.netCents < 0) ps hnodup p hp
    simpa using this
  rw [hcred, hdebt] at hflow
  rcases lt_trichotomy p.netCents 0 with h | h | h
  · rw [if_neg (by omega), if_pos h, abs_of_neg h] at hflow
    omega
  · rw [if_neg (by omega), if_neg (by omega)] at hflow
    omega
  · rw [if_pos h, if_neg (by omega)] at hflow
    omega

/-- C1 witness instance: the worked example of the specification (three
people, one 100.00 expense split three ways, person 0 paid everything). -/
theorem c1_settlement_correctness_witness :
    (([⟨0, 20⟩, ⟨1, 21⟩, ⟨2, 22⟩] :
        List RosterPerson).map RosterPerson.name).Nodup ∧
    (∀ p ∈ (computeSettlement [⟨0, 20⟩, ⟨1, 21⟩, ⟨2, 22⟩]
        (Ledger.ofPeople [0, 1, 2]) ⟨{0}, fun _ => 10000⟩).people,
      p.netCents
        + amountFrom p.name (computeSettlement [⟨0, 20⟩, ⟨1, 21⟩, ⟨2, 22⟩]
            (Ledger.ofPeople [0, 1, 2]) ⟨{0}, fun _ => 10000⟩).settlements
        - amountTo p.name (computeSettlement [⟨0, 20⟩, ⟨1, 21⟩, ⟨2, 22⟩]
            (Ledger.ofPeople [0, 1, 2]) ⟨{0}, fun _ => 10000⟩).settlements
      = 0) :=
  ⟨by decide,
    c1_settlement_correctness [⟨0, 20⟩, ⟨1, 21⟩, ⟨2, 22⟩]
      (Ledger.ofPeople [0, 1, 2]) ⟨{0}, fun _ => 10000⟩ (by decide)⟩

theorem nonzero_count_split (ps : List SettledPerson) :
    (ps.filter fun p => p.netCents < 0).length
      + (ps.filter fun p => 0 < p.netCents).length
      = (ps.filter fun p => p.netCents ≠ 0).length := by
  induction ps with
  | nil => rfl
  | cons p rest ih =>
    simp only [List.filter_cons]
    rcases lt_trichotomy p.netCents 0 with h | h | h
    · rw [if_pos (by simp [h]), if_neg (by simp; omega),
        if_pos (by simp; omega)]
      simp only [List.length_cons]
      omega
    · rw [if_neg (by simp [h]), if_neg (by simp [h]), if_neg (by simp [h])]
      omega
    · rw [if_neg (by simp; omega), if_pos (by simp [h]),
        if_pos (by simp; omega)]
      simp only [List.length_cons]
      omega

/-- C5: for a zero-summed people list, the greedy reduction records at most
`(number of people with nonzero net balance) - 1` transfers (natural-number
subtraction). -/
theorem c5_transfer_count_bound (ps : List SettledPerson)
    (_hzero : sumNets ps = 0) :
    (settleLoop (debtorsOf ps) (creditorsOf ps)).length
      ≤ (ps.filter fun p => p.netCents ≠ 0).length - 1 := by
  have h := settleLoop_length_le (debtorsOf ps) (creditorsOf ps)
  have hd : (debtorsOf ps).length
      = (ps.filter fun p => p.netCents < 0).length := by
    unfold debtorsOf
    rw [List.length_insertionSort, List.length_map]
  have hc : (creditorsOf ps).length
      = (ps.filter fun p => 0 < p.netCents).length := by
    unfold creditorsOf
    rw [List.length_insertionSort, List.length_map]
  have hsplit := nonzero_count_split ps
  omega

/-- C5 witness instance. -/
theorem c5_transfer_count_bound_witness :
    sumNets [⟨0, 10, 0, 5, 5⟩, ⟨1, 11, 5, 0, -5⟩] = 0 ∧
    (settleLoop (debtorsOf [⟨0, 10, 0, 5, 5⟩, ⟨1, 11, 5, 0, -5⟩])
        (creditorsOf [⟨0, 10, 0, 5, 5⟩, ⟨1, 11, 5, 0, -5⟩])).length
      ≤ (([⟨0, 10, 0, 5, 5⟩, ⟨1, 11, 5, 0, -5⟩] :
          List SettledPerson).filter fun p => p.netCents ≠ 0).length - 1 :=
  ⟨by decide,
    c5_transfer_count_bound [⟨0, 10, 0, 5, 5⟩, ⟨1, 11, 5, 0, -5⟩] (by decide)⟩

/-! ## Even bill split -/

theorem evenSplitPerPersonCents_100_3 : evenSplitPerPersonCents 100 3 = 3333 := by
  unfold evenSplitPerPersonCents jsRound
  norm_num

/-- C7 counterexample: bill `100.00` split over `3` people shows `$33.33`
(`Math.round(10000 / 3) = 3333`), not the claimed `$33.34`. -/
theorem c7_even_split_counterexample : evenSplitDisplay 100 3 ≠ "$33.34" := by
  unfold evenSplitDisplay
  rw [if_neg (by norm_num), evenSplitPerPersonCents_100_3]
  decide

/-- C7 (amended): the even-split calculator shows a single rounded share,
`Math.round(billTotal * 100 / numPeople)`; for bill `100.00` and `3` people
that is `3333` cents, displayed as `$33.33`, and no remainder cent is
assigned to anyone (`3 x 3333` is one cent short of the bill). -/
theorem c7_even_split_amended :
    evenSplitPerPersonCents 100 3 = 3333 ∧
    evenSplitDisplay 100 3 = "$33.33" ∧
    3 * evenSplitPerPersonCents 100 3 ≠ 10000 := by
  refine ⟨evenSplitPerPersonCents_100_3, ?_, ?_⟩
  · unfold evenSplitDisplay
    rw [if_neg (by norm_num), evenSplitPerPersonCents_100_3]
    decide
  · rw [evenSplitPerPersonCents_100_3]
    decide

/-! ## Proportional tax/tip -/

instance : IsTotal PropShare propOrder :=
  ⟨fun a b => le_total b.proportion a.proportion⟩

instance : IsTrans PropShare propOrder :=
  ⟨fun _ _ _ hab hbc => le_trans hbc hab⟩

theorem sortPropShares_perm (l : List PropShare) :
    (sortPropShares l).Perm l :=
  List.perm_insertionSort propOrder l

theorem sortPropShares_sorted (l : List PropShare) :
    List.Sorted propOrder (sortPropShares l) :=
  List.sorted_insertionSort propOrder l

theorem propShares_map_id (ids : List ℕ) (led : Ledger) (T S : ℤ) :
    (propShares ids led T S).map PropShare.id = ids := by
  unfold propShares
  rw [List.map_map]
  exact List.map_id ids

theorem propShares_map_share (ids : List ℕ) (led : Ledger) (T S : ℤ) :
    (propShares ids led T S).map PropShare.share
      = ids.map fun pid => ⌊(T : ℚ) * ((led.get pid : ℚ) / (S : ℚ))⌋ := by
  unfold propShares
  rw [List.map_map]
  rfl

theorem propShares_length (ids : List ℕ) (led : Ledger) (T S : ℤ) :
    (propShares ids led T S).length = ids.length := by
  unfold propShares
  rw [List.length_map]

theorem mem_propShares (ids : List ℕ) (led : Ledger) (T S : ℤ)
    (e : PropShare) (he : e ∈ propShares ids led T S) :
    e.id ∈ ids ∧
    e.share = ⌊(T : ℚ) * ((led.get e.id : ℚ) / (S : ℚ))⌋ ∧
    e.proportion = (led.get e.id : ℚ) / (S : ℚ) := by
  unfold propShares at he
  obtain ⟨pid, hpid, rfl⟩ := List.mem_map.mp he
  exact ⟨hpid, rfl, rfl⟩

theorem sum_filter_enumFrom_zero (g : ℕ → PropShare → ℤ) (p : ℕ) :
    ∀ (L : List PropShare) (k : ℕ), p ∉ L.map PropShare.id →
    ((((List.enumFrom k L).map fun ie => (ie.2.id, g ie.1 ie.2)).filter
        fun pr => pr.1 = p).map Prod.snd).sum = 0 := by
  intro L
  induction L with
  | nil => intro k _; rfl
  | cons x rest ih =>
    intro k h
    rw [List.enumFrom_cons, List.map_cons, List.filter_cons]
    have hx : x.id ≠ p := by
      intro hEq
      exact h (hEq ▸ List.mem_map_of_mem PropShare.id
        (List.mem_cons_self x rest))
    rw [if_neg (by simpa using hx)]
    exact ih (k + 1) (fun hmem => h (List.mem_cons_of_mem _ hmem))

theorem sum_filter_enumFrom_single (g : ℕ → PropShare → ℤ) (p : ℕ) :
    ∀ (L : List PropShare) (k : ℕ), (L.map PropShare.id).Nodup →
    p ∈ L.map PropShare.id →
    ∃ i, ∃ hi : i < L.length, (L.get ⟨i, hi⟩).id = p ∧
      ((((List.enumFrom k L).map fun ie => (ie.2.id, g ie.1 ie.2)).filter
          fun pr => pr.1 = p).map Prod.snd).sum = g (k + i) (L.get ⟨i, hi⟩) := by
  intro L
  induction L with
  | nil => intro k _ hmem; cases hmem
  | cons x rest ih =>
    intro k hnd hmem
    rw [List.map_cons] at hnd hmem
    have hnd2 := List.nodup_cons.mp hnd
    rw [List.enumFrom_cons, List.map_cons, List.filter_cons]
    by_cases hx : x.id = p
    · refine ⟨0, by simp, hx, ?_⟩
      rw [if_pos (by simpa using hx)]
      rw [List.map_cons, List.sum_cons]
      rw [sum_filter_enumFrom_zero g p rest (k + 1) (hx ▸ hnd2.1)]
      simp
    · rcases List.mem_cons.mp hmem with hEq | hmem'
      · exact absurd hEq.symm hx
      · obtain ⟨i, hi, hid, hsum⟩ := ih (k + 1) hnd2.2 hmem'
        refine ⟨i + 1, by simpa using hi, by simpa using hid, ?_⟩
        rw [if_neg (by simpa using hx)]
        rw [hsum]
        congr 1
        omega

theorem propTaxTipStage_eq (peopleIds : List ℕ) (led : Ledger) (T : ℤ)
    (hS : 0 < led.sum) :
    propTaxTipStage peopleIds led T
      = led.addShares
          ((sortPropShares (propShares peopleIds led T led.sum)).enum.map
            fun ie => (ie.2.id, ie.2.share +
              if (ie.1 : ℤ) < T - ((propShares peopleIds led T led.sum).map
                  PropShare.share).sum then 1 else 0)) := by
  simp only [propTaxTipStage]
  rw [if_pos hS]
  rfl

theorem ledger_sum_list (peopleIds : List ℕ) (led : Ledger)
    (hnd : peopleIds.Nodup) (hkeys : led.keys = peopleIds.toFinset) :
    (peopleIds.map fun pid => led.get pid).sum = led.sum := by
  have h : led.sum = ∑ p ∈ peopleIds.toFinset, led.get p := by
    rw [Ledger.sum, hkeys]
  rw [h, List.sum_toFinset _ hnd]

theorem peopleIds_ne_nil (peopleIds : List ℕ) (led : Ledger)
    (hkeys : led.keys = peopleIds.toFinset) (hS : 0 < led.sum) :
    peopleIds ≠ [] := by
  intro h
  subst h
  rw [Ledger.sum, hkeys] at hS
  simp at hS

theorem propSharesSum_le (peopleIds : List ℕ) (led : Ledger) (T : ℤ)
    (hnd : peopleIds.Nodup) (hkeys : led.keys = peopleIds.toFinset)
    (hS : 0 < led.sum) :
    ((propShares peopleIds led T led.sum).map PropShare.share).sum ≤ T := by
  have hSq : ((led.sum : ℤ) : ℚ) ≠ 0 :=
    Int.cast_ne_zero.mpr (ne_of_gt hS)
  have hTsum : (peopleIds.map fun pid =>
      (T : ℚ) * ((led.get pid : ℚ) / (led.sum : ℚ))).sum = (T : ℚ) := by
    have hchange : (fun pid => (T : ℚ) * ((led.get pid : ℚ) / (led.sum : ℚ)))
        = fun pid => ((T : ℚ) / (led.sum : ℚ)) * (led.get pid : ℚ) := by
      funext pid
      ring
    rw [hchange, List.sum_map_mul_left]
    have hcast : (peopleIds.map fun pid => ((led.get pid : ℤ) : ℚ)).sum
        = (((peopleIds.map fun pid => led.get pid).sum : ℤ) : ℚ) := by
      rw [Int.cast_list_sum, List.map_map]
      rfl
    rw [hcast, ledger_sum_list peopleIds led hnd hkeys]
    field_simp
  have h1 : (((propShares peopleIds led T led.sum).map
      PropShare.share).sum : ℚ) ≤ ((T : ℤ) : ℚ) := by
    rw [propShares_map_share, Int.cast_list_sum, List.map_map]
    calc (peopleIds.map (Int.cast ∘ fun pid =>
            ⌊(T : ℚ) * ((led.get pid : ℚ) / (led.sum : ℚ))⌋)).sum
        ≤ (peopleIds.map fun pid =>
            (T : ℚ) * ((led.get pid : ℚ) / (led.sum : ℚ))).sum := by
          apply List.sum_le_sum
          intro pid _
          exact Int.floor_le _
      _ = ((T : ℤ) : ℚ) := hTsum
  exact_mod_cast h1

theorem lt_propSharesSum (peopleIds : List ℕ) (led : Ledger) (T : ℤ)
    (hnd : peopleIds.Nodup) (hkeys : led.keys = peopleIds.toFinset)
    (hS : 0 < led.sum) :
    T - (peopleIds.length : ℤ)
      < ((propShares peopleIds led T led.sum).map PropShare.share).sum := by
  have hSq : ((led.sum : ℤ) : ℚ) ≠ 0 :=
    Int.cast_ne_zero.mpr (ne_of_gt hS)
  have hne := peopleIds_ne_nil peopleIds led hkeys hS
  have hTsum : (peopleIds.map fun pid =>
      (T : ℚ) * ((led.get pid : ℚ) / (led.sum : ℚ))).sum = (T : ℚ) := by
    have hchange : (fun pid => (T : ℚ) * ((led.get pid : ℚ) / (led.sum : ℚ)))
        = fun pid => ((T : ℚ) / (led.sum : ℚ)) * (led.get pid : ℚ) := by
      funext pid
      ring
    rw [hchange, List.sum_map_mul_left]
    have hcast : (peopleIds.map fun pid => ((led.get pid : ℤ) : ℚ)).sum
        = (((peopleIds.map fun pid => led.get pid).sum : ℤ) : ℚ) := by
      rw [Int.cast_list_sum, List.map_map]
      rfl
    rw [hcast, ledger_sum_list peopleIds led hnd hkeys]
    field_simp
  have h1 : ((T : ℤ) : ℚ) - (peopleIds.length : ℚ)
      < (((propShares peopleIds led T led.sum).map
          PropShare.share).sum : ℚ) := by
    rw [propShares_map_share, Int.cast_list_sum, List.map_map]
    have hlt : (peopleIds.map fun pid =>
        ((T : ℚ) * ((led.get pid : ℚ) / (led.sum : ℚ)) - 1)).sum
        < (peopleIds.map (Int.cast ∘ fun pid =>
            ⌊(T : ℚ) * ((led.get pid : ℚ) / (led.sum : ℚ))⌋)).sum := by
      apply List.sum_lt_sum
      · intro pid _
        exact le_of_lt (Int.sub_one_lt_floor _)
      · obtain ⟨pid0, hpid0⟩ := List.exists_mem_of_ne_nil peopleIds hne
        exact ⟨pid0, hpid0, Int.sub_one_lt_floor _⟩
    have hsub : (peopleIds.map fun pid =>
        ((T : ℚ) * ((led.get pid : ℚ) / (led.sum : ℚ)) - 1)).sum
        = (((T : ℤ) : ℚ)) - (peopleIds.length : ℚ) := by
      have hsplit : (fun pid =>
          ((T : ℚ) * ((led.get pid : ℚ) / (led.sum : ℚ)) - 1))
          = fun pid =>
            ((T : ℚ) * ((led.get pid : ℚ) / (led.sum : ℚ)) + (-1 : ℚ)) := by
        funext pid
        ring
      rw [hsplit, List.sum_map_add, hTsum]
      have hconst : (peopleIds.map fun _ => (-1 : ℚ)).sum
          = -(peopleIds.length : ℚ) := by
        rw [List.map_const', List.sum_replicate, nsmul_eq_mul]
        ring
      rw [hconst]
      ring
    rw [← hsub]
    exact hlt
  have h2 : ((T - (peopleIds.length : ℤ) : ℤ) : ℚ)
      < (((propShares peopleIds led T led.sum).map
          PropShare.share).sum : ℚ) := by
    push_cast
    push_cast at h1
    linarith
  exact_mod_cast h2

theorem sortPropShares_length (peopleIds : List ℕ) (led : Ledger) (T : ℤ) :
    (sortPropShares (propShares peopleIds led T led.sum)).length
      = peopleIds.length := by
  rw [(sortPropShares_perm _).length_eq, propShares_length]

/-- Conservation of the proportional tax/tip stage: the stage adds exactly
`T` cents to the ledger total. -/
theorem propTaxTipStage_sum (peopleIds : List ℕ) (led : Ledger) (T : ℤ)
    (hnd : peopleIds.Nodup) (hkeys : led.keys = peopleIds.toFinset)
    (hS : 0 < led.sum) :
    (propTaxTipStage peopleIds led T).sum = led.sum + T := by
  have hle := propSharesSum_le peopleIds led T hnd hkeys hS
  have hgt := lt_propSharesSum peopleIds led T hnd hkeys hS
  rw [propTaxTipStage_eq peopleIds led T hS, Ledger.sum_addShares]
  have hmap : ((sortPropShares (propShares peopleIds led T led.sum)).enum.map
      fun ie => (ie.2.id, ie.2.share +
        if (ie.1 : ℤ) < T - ((propShares peopleIds led T led.sum).map
            PropShare.share).sum then 1 else 0)).map Prod.snd
      = (sortPropShares (propShares peopleIds led T led.sum)).enum.map
          fun ie => ie.2.share +
            if (ie.1 : ℤ) < T - ((propShares peopleIds led T led.sum).map
                PropShare.share).sum then 1 else 0 := by
    rw [List.map_map]
    rfl
  rw [hmap]
  have hsplit : ((sortPropShares (propShares peopleIds led T led.sum)).enum.map
      fun ie => ie.2.share +
        if (ie.1 : ℤ) < T - ((propShares peopleIds led T led.sum).map
            PropShare.share).sum then 1 else 0).sum
      = ((sortPropShares (propShares peopleIds led T led.sum)).enum.map
          fun ie => ie.2.share).sum
        + ((sortPropShares (propShares peopleIds led T led.sum)).enum.map
          fun ie => if (ie.1 : ℤ) < T -
              ((propShares peopleIds led T led.sum).map PropShare.share).sum
            then (1 : ℤ) else 0).sum :=
    List.sum_map_add
  rw [hsplit]
  have hshares : ((sortPropShares (propShares peopleIds led T led.sum)).enum.map
      fun ie => ie.2.share).sum
      = ((propShares peopleIds led T led.sum).map PropShare.share).sum := by
    have hcomp : ((sortPropShares (propShares peopleIds led T led.sum)).enum.map
        fun ie => ie.2.share)
        = ((sortPropShares (propShares peopleIds led T led.sum)).enum.map
            Prod.snd).map PropShare.share := by
      rw [List.map_map]
      rfl
    rw [hcomp, List.enum_map_snd]
    exact ((sortPropShares_perm _).map PropShare.share).sum_eq
  have hites : ((sortPropShares (propShares peopleIds led T led.sum)).enum.map
      fun ie => if (ie.1 : ℤ) < T -
          ((propShares peopleIds led T led.sum).map PropShare.share).sum
        then (1 : ℤ) else 0).sum
      = T - ((propShares peopleIds led T led.sum).map PropShare.share).sum := by
    have hcomp : ((sortPropShares (propShares peopleIds led T led.sum)).enum.map
        fun ie => if (ie.1 : ℤ) < T -
            ((propShares peopleIds led T led.sum).map PropShare.share).sum
          then (1 : ℤ) else 0)
        = ((sortPropShares (propShares peopleIds led T led.sum)).enum.map
            Prod.fst).map fun i : ℕ => if (i : ℤ) < T -
              ((propShares peopleIds led T led.sum).map PropShare.share).sum
            then (1 : ℤ) else 0 := by
      rw [List.map_map]
      rfl
    rw [hcomp, List.enum_map_fst, sum_map_ite_range _ _ (by omega),
      sortPropShares_length]
    omega
  rw [hshares, hites]
  ring

/-- Per-person form of the proportional stage: everyone receives the floor
of their exact proportional share, plus one extra cent exactly when their
position in the proportion-descending order is below the remainder. -/
theorem propTaxTipStage_get (peopleIds : List ℕ) (led : Ledger) (T : ℤ)
    (hnd : peopleIds.Nodup) (hS : 0 < led.sum) (p : ℕ) (hp : p ∈ peopleIds) :
    ∃ i, ∃ hi : i <
        (sortPropShares (propShares peopleIds led T led.sum)).length,
      ((sortPropShares (propShares peopleIds led T led.sum)).get ⟨i, hi⟩).id
        = p ∧
      ((sortPropShares (propShares peopleIds led T led.sum)).get
          ⟨i, hi⟩).proportion = (led.get p : ℚ) / (led.sum : ℚ) ∧
      (propTaxTipStage peopleIds led T).get p
        = led.get p + ⌊(T : ℚ) * ((led.get p : ℚ) / (led.sum : ℚ))⌋ +
          (if (i : ℤ) < T - ((propShares peopleIds led T led.sum).map
              PropShare.share).sum then 1 else 0) := by
  have hidsperm : ((sortPropShares (propShares peopleIds led T led.sum)).map
      PropShare.id).Perm peopleIds := by
    have h := (sortPropShares_perm (propShares peopleIds led T led.sum)).map
      PropShare.id
    rw [propShares_map_id] at h
    exact h
  have hndL := hidsperm.nodup_iff.mpr hnd
  have hmemL : p ∈ (sortPropShares (propShares peopleIds led T led.sum)).map
      PropShare.id := hidsperm.mem_iff.mpr hp
  obtain ⟨i, hi, hid, hsum⟩ := sum_filter_enumFrom_single
    (fun i e => e.share + if (i : ℤ) < T -
        ((propShares peopleIds led T led.sum).map PropShare.share).sum
      then 1 else 0) p
    (sortPropShares (propShares peopleIds led T led.sum)) 0 hndL hmemL
  have hmem : (sortPropShares (propShares peopleIds led T led.sum)).get ⟨i, hi⟩
      ∈ propShares peopleIds led T led.sum :=
    (sortPropShares_perm _).mem_iff.mp (List.get_mem _ _ _)
  obtain ⟨_, hshare, hprop⟩ := mem_propShares _ _ _ _ _ hmem
  refine ⟨i, hi, hid, by rw [hprop, hid], ?_⟩
  rw [propTaxTipStage_eq peopleIds led T hS, Ledger.get_addShares,
    List.enum_eq_enumFrom, hsum]
  rw [hshare, hid]
  simp only [Nat.zero_add]
  ring

/-- C6 (amended): in the restaurant scenario's proportional mode with a
positive subtotal, each person's tax/tip addition is the floor of their
exact fractional proportion of the tax/tip, possibly plus one extra cent;
the tax/tip total is distributed exactly; and the extra cents go to
participants ranked by descending proportion of the subtotal (the ranking
is not by largest fractional remainder — see the counterexample — and not
by input order). -/
theorem c6_proportional_taxtip_amended (peopleIds : List ℕ) (led : Ledger)
    (T : ℤ) (hnd : peopleIds.Nodup) (hkeys : led.keys = peopleIds.toFinset)
    (hS : 0 < led.sum) :
    (propTaxTipStage peopleIds led T).sum = led.sum + T ∧
    (∀ p ∈ peopleIds, ∃ e : ℤ, (e = 0 ∨ e = 1) ∧
      (propTaxTipStage peopleIds led T).get p
        = led.get p + ⌊(T : ℚ) * ((led.get p : ℚ) / (led.sum : ℚ))⌋ + e) ∧
    (∀ p ∈ peopleIds, ∀ q ∈ peopleIds,
      (propTaxTipStage peopleIds led T).get p
          = led.get p + ⌊(T : ℚ) * ((led.get p : ℚ) / (led.sum : ℚ))⌋ + 1 →
      (propTaxTipStage peopleIds led T).get q
          = led.get q + ⌊(T : ℚ) * ((led.get q : ℚ) / (led.sum : ℚ))⌋ →
      (led.get q : ℚ) / (led.sum : ℚ) ≤ (led.get p : ℚ) / (led.sum : ℚ)) := by
  refine ⟨propTaxTipStage_sum peopleIds led T hnd hkeys hS, ?_, ?_⟩
  · intro p hp
    obtain ⟨i, hi, _, _, hget⟩ :=
      propTaxTipStage_get peopleIds led T hnd hS p hp
    exact ⟨if (i : ℤ) < T - ((propShares peopleIds led T led.sum).map
        PropShare.share).sum then 1 else 0, by split <;> simp, hget⟩
  · intro p hp q hq hp1 hq0
    obtain ⟨ip, hip, hidp, hpropp, hgetp⟩ :=
      propTaxTipStage_get peopleIds led T hnd hS p hp
    obtain ⟨iq, hiq, hidq, hpropq, hgetq⟩ :=
      propTaxTipStage_get peopleIds led T hnd hS q hq
    rw [hgetp] at hp1
    rw [hgetq] at hq0
    have hiplt : (ip : ℤ) < T - ((propShares peopleIds led T led.sum).map
        PropShare.share).sum := by
      by_contra hcon
      rw [if_neg hcon] at hp1
      omega
    have hiqge : ¬ (iq : ℤ) < T - ((propShares peopleIds led T led.sum).map
        PropShare.share).sum := by
      intro hcon
      rw [if_pos hcon] at hq0
      omega
    have hlt : ip < iq := by omega
    have hpair : propOrder
        ((sortPropShares (propShares peopleIds led T led.sum)).get ⟨ip, hip⟩)
        ((sortPropShares (propShares peopleIds led T led.sum)).get ⟨iq, hiq⟩) :=
      List.Sorted.rel_get_of_lt (sortPropShares_sorted _) hlt
    rw [← hpropq, ← hpropp]
    exact hpair

/-- C6 witness instance. -/
theorem c6_proportional_taxtip_amended_witness :
    ([0, 1] : List ℕ).Nodup ∧
    (⟨[0, 1].toFinset, fun p => if p = 0 then 3 else 1⟩ : Ledger).keys
      = ([0, 1] : List ℕ).toFinset ∧
    0 < (⟨[0, 1].toFinset, fun p => if p = 0 then 3 else 1⟩ : Ledger).sum ∧
    (propTaxTipStage [0, 1]
        ⟨[0, 1].toFinset, fun p => if p = 0 then 3 else 1⟩ 7).sum
      = (⟨[0, 1].toFinset, fun p => if p = 0 then 3 else 1⟩ : Ledger).sum + 7 :=
  ⟨by decide, by decide, by decide,
    (c6_proportional_taxtip_amended [0, 1]
      ⟨[0, 1].toFinset, fun p => if p = 0 then 3 else 1⟩ 7
      (by decide) (by decide) (by decide)).1⟩

/-- C6 counterexample: restaurant scenario, proportional mode, roster
`[0, 1, 2]`, items `6.00` (person 0), `3.99` (person 1), `0.01` (person 2),
tax/tip `0.10`.  Subtotals are `600 / 399 / 1` of `1000`, the exact
proportional tax shares are `6.00 / 3.99 / 0.01` cents, so the fractional
remainders are `0`, `0.99`, `0.01`.  The code hands the one leftover cent
to person 0 (largest proportion, remainder `0`) — the final owed values are
`607` and `402` — although person 1 has the strictly largest fractional
remainder, refuting the largest-remainder-first description. -/
theorem c6_proportional_taxtip_counterexample :
    (computeRestaurantOwed
        ⟨[0, 1, 2], [⟨6, 1, [0]⟩, ⟨399/100, 1, [1]⟩, ⟨1/100, 1, [2]⟩],
          true, 1/10, false⟩).get 0 = 607 ∧
    (computeRestaurantOwed
        ⟨[0, 1, 2], [⟨6, 1, [0]⟩, ⟨399/100, 1, [1]⟩, ⟨1/100, 1, [2]⟩],
          true, 1/10, false⟩).get 1 = 402 ∧
    ((jsRound ((1/10 : ℚ) * 100) : ℚ) *
        (((computeGroupExpenseOwed [0, 1, 2]
            [⟨6, 1, [0]⟩, ⟨399/100, 1, [1]⟩, ⟨1/100, 1, [2]⟩]).get 0 : ℚ) /
          ((computeGroupExpenseOwed [0, 1, 2]
            [⟨6, 1, [0]⟩, ⟨399/100, 1, [1]⟩, ⟨1/100, 1, [2]⟩]).sum : ℚ))
      - ⌊(jsRound ((1/10 : ℚ) * 100) : ℚ) *
          (((computeGroupExpenseOwed [0, 1, 2]
              [⟨6, 1, [0]⟩, ⟨399/100, 1, [1]⟩, ⟨1/100, 1, [2]⟩]).get 0 : ℚ) /
            ((computeGroupExpenseOwed [0, 1, 2]
              [⟨6, 1, [0]⟩, ⟨399/100, 1, [1]⟩, ⟨1/100, 1, [2]⟩]).sum : ℚ))⌋)
      < ((jsRound ((1/10 : ℚ) * 100) : ℚ) *
          (((computeGroupExpenseOwed [0, 1, 2]
              [⟨6, 1, [0]⟩, ⟨399/100, 1, [1]⟩, ⟨1/100, 1, [2]⟩]).get 1 : ℚ) /
            ((computeGroupExpenseOwed [0, 1, 2]
              [⟨6, 1, [0]⟩, ⟨399/100, 1, [1]⟩, ⟨1/100, 1, [2]⟩]).sum : ℚ))
        - ⌊(jsRound ((1/10 : ℚ) * 100) : ℚ) *
            (((computeGroupExpenseOwed [0, 1, 2]
                [⟨6, 1, [0]⟩, ⟨399/100, 1, [1]⟩, ⟨1/100, 1, [2]⟩]).get 1 : ℚ) /
              ((computeGroupExpenseOwed [0, 1, 2]
                [⟨6, 1, [0]⟩, ⟨399/100, 1, [1]⟩, ⟨1/100, 1, [2]⟩]).sum : ℚ))⌋) := by
  have h6 : totalItemCents ⟨6, 1, [0]⟩ = 600 := by
    unfold totalItemCents jsRound
    norm_num
  have h399 : totalItemCents ⟨399/100, 1, [1]⟩ = 399 := by
    unfold totalItemCents jsRound
    norm_num
  have h1c : totalItemCents ⟨1/100, 1, [2]⟩ = 1 := by
    unfold totalItemCents jsRound
    norm_num
  have hled : computeGroupExpenseOwed [0, 1, 2]
      [⟨6, 1, [0]⟩, ⟨399/100, 1, [1]⟩, ⟨1/100, 1, [2]⟩]
      = (((Ledger.ofPeople [0, 1, 2]).addShares [(0, 600)]).addShares
          [(1, 399)]).addShares [(2, 1)] := by
    unfold computeGroupExpenseOwed
    simp only [List.foldl_cons, List.foldl_nil]
    rw [if_neg (by norm_num), if_neg (by norm_num), if_neg (by norm_num)]
    rw [h6, h399, h1c]
    rw [show distributeCentsEvenly 600 [0] = [(0, 600)] from by decide]
    rw [show distributeCentsEvenly 399 [1] = [(1, 399)] from by decide]
    rw [show distributeCentsEvenly 1 [2] = [(2, 1)] from by decide]
  have hget0 : (computeGroupExpenseOwed [0, 1, 2]
      [⟨6, 1, [0]⟩, ⟨399/100, 1, [1]⟩, ⟨1/100, 1, [2]⟩]).get 0 = 600 := by
    rw [hled, Ledger.get_addShares, Ledger.get_addShares,
      Ledger.get_addShares, Ledger.get_ofPeople]
    decide
  have hget1 : (computeGroupExpenseOwed [0, 1, 2]
      [⟨6, 1, [0]⟩, ⟨399/100, 1, [1]⟩, ⟨1/100, 1, [2]⟩]).get 1 = 399 := by
    rw [hled, Ledger.get_addShares, Ledger.get_addShares,
      Ledger.get_addShares, Ledger.get_ofPeople]
    decide
  have hget2 : (computeGroupExpenseOwed [0, 1, 2]
      [⟨6, 1, [0]⟩, ⟨399/100, 1, [1]⟩, ⟨1/100, 1, [2]⟩]).get 2 = 1 := by
    rw [hled, Ledger.get_addShares, Ledger.get_addShares,
      Ledger.get_addShares, Ledger.get_ofPeople]
    decide
  have hsum : (computeGroupExpenseOwed [0, 1, 2]
      [⟨6, 1, [0]⟩, ⟨399/100, 1, [1]⟩, ⟨1/100, 1, [2]⟩]).sum = 1000 := by
    rw [hled, Ledger.sum_addShares, Ledger.sum_addShares,
      Ledger.sum_addShares, Ledger.sum_ofPeople]
    decide
  have hT : jsRound ((1/10 : ℚ) * 100) = 10 := by
    unfold jsRound
    norm_num
  have hS : 0 < (computeGroupExpenseOwed [0, 1, 2]
      [⟨6, 1, [0]⟩, ⟨399/100, 1, [1]⟩, ⟨1/100, 1, [2]⟩]).sum := by
    rw [hsum]
    norm_num
  have hprop : propShares [0, 1, 2]
      (computeGroupExpenseOwed [0, 1, 2]
        [⟨6, 1, [0]⟩, ⟨399/100, 1, [1]⟩, ⟨1/100, 1, [2]⟩]) 10
      (computeGroupExpenseOwed [0, 1, 2]
        [⟨6, 1, [0]⟩, ⟨399/100, 1, [1]⟩, ⟨1/100, 1, [2]⟩]).sum
      = [⟨0, 6, 3/5⟩, ⟨1, 3, 399/1000⟩, ⟨2, 0, 1/1000⟩] := by
    unfold propShares
    rw [hsum]
    simp only [List.map_cons, List.map_nil, hget0, hget1, hget2,
      List.cons.injEq, PropShare.mk.injEq, List.map_nil]
    norm_num
  have hsort : sortPropShares
      ([⟨0, 6, 3/5⟩, ⟨1, 3, 399/1000⟩, ⟨2, 0, 1/1000⟩] : List PropShare)
      = [⟨0, 6, 3/5⟩, ⟨1, 3, 399/1000⟩, ⟨2, 0, 1/1000⟩] := by
    unfold sortPropShares
    rw [show ([⟨0, 6, 3/5⟩, ⟨1, 3, 399/1000⟩, ⟨2, 0, 1/1000⟩] :
        List PropShare)
      = ⟨0, 6, 3/5⟩ :: ⟨1, 3, 399/1000⟩ :: ⟨2, 0, 1/1000⟩ :: [] from rfl]
    rw [List.insertionSort, List.insertionSort, List.insertionSort,
      List.insertionSort]
    rw [List.orderedInsert, List.orderedInsert]
    rw [if_pos (show propOrder ⟨1, 3, 399/1000⟩ ⟨2, 0, 1/1000⟩ from
      by unfold propOrder; norm_num)]
    rw [List.orderedInsert]
    rw [if_pos (show propOrder ⟨0, 6, 3/5⟩ ⟨1, 3, 399/1000⟩ from
      by unfold propOrder; norm_num)]
  have hstage : (computeRestaurantOwed
      ⟨[0, 1, 2], [⟨6, 1, [0]⟩, ⟨399/100, 1, [1]⟩, ⟨1/100, 1, [2]⟩],
        true, 1/10, false⟩)
      = propTaxTipStage [0, 1, 2]
          (computeGroupExpenseOwed [0, 1, 2]
            [⟨6, 1, [0]⟩, ⟨399/100, 1, [1]⟩, ⟨1/100, 1, [2]⟩]) 10 := by
    simp only [computeRestaurantOwed]
    rw [if_pos (show _ ∧ _ from ⟨by norm_num, by norm_num⟩), if_neg (by simp)]
    rw [hT]
  have happly : propTaxTipStage [0, 1, 2]
      (computeGroupExpenseOwed [0, 1, 2]
        [⟨6, 1, [0]⟩, ⟨399/100, 1, [1]⟩, ⟨1/100, 1, [2]⟩]) 10
      = (computeGroupExpenseOwed [0, 1, 2]
          [⟨6, 1, [0]⟩, ⟨399/100, 1, [1]⟩, ⟨1/100, 1, [2]⟩]).addShares
          [(0, 7), (1, 3), (2, 0)] := by
    rw [propTaxTipStage_eq _ _ _ hS, hprop, hsort]
    rw [show (10 : ℤ) - (([⟨0, 6, 3/5⟩, ⟨1, 3, 399/1000⟩, ⟨2, 0, 1/1000⟩] :
        List PropShare).map PropShare.share).sum = 1 from by decide]
    rw [show (([⟨0, 6, 3/5⟩, ⟨1, 3, 399/1000⟩, ⟨2, 0, 1/1000⟩] :
          List PropShare).enum.map fun ie => (ie.2.id, ie.2.share +
            if (ie.1 : ℤ) < 1 then 1 else 0))
        = [(0, 7), (1, 3), (2, 0)] from by decide]
  refine ⟨?_, ?_, ?_⟩
  · rw [hstage, happly, Ledger.get_addShares, hget0]
    decide
  · rw [hstage, happly, Ledger.get_addShares, hget1]
    decide
  · rw [hT, hget0, hget1, hsum]
    norm_num

end SplitBills
